import Mathlib

/-!
Shallow embedding of the ARCropolis core (files `src/fs.rs` and
`src/replacement_files.rs`) and proofs of the specification claims.

Conventions of the embedding:
* `Hash40` (the 64-bit path fingerprint of the `smash_arc` crate) is kept
  opaque: every claim treats fingerprints as keys, so it is modelled as `Nat`.
* `Utf8PathBuf` / `PathBuf` become `String` (paths in the claims are ASCII, so
  byte indices and character indices of the Rust code coincide; string
  manipulation steps are modelled on `List Char`).
* Rust `HashMap<Hash40, V>` becomes the function `Nat → Option V`; a map has at
  most one value per key by construction, matching the Rust type.
* A Rust code path that panics (`unwrap` on `None`, out-of-bounds byte slice,
  `replace_range` with an inverted range) is modelled by returning `none` from
  an `Option`-valued Lean function; the doc comment of each such function says
  which panic the `none` stands for.
-/

namespace Arcropolis

/-- `ModFile` from `src/fs.rs` (lines 154-158): a discovered file, the path as
stored by the scan (it still carries the mod directory's root as a prefix, see
`ModDir.get_patch`) together with its size in bytes. Equality is structural,
as with the derived `PartialEq`. -/
structure ModFile where
  path : String
  size : Nat
deriving DecidableEq

/-- `ModDir` from `src/fs.rs` (lines 113-118): a mod directory with its root,
its discovered files and its patch sub-paths. Derived equality compares all
three fields, as the Rust `PartialEq` derive does. -/
structure ModDir where
  root : String
  files : List ModFile
  patches : List String
deriving DecidableEq

/-- `ConflictV2` from `src/fs.rs` (lines 168-171): an ordered pair of
conflicting mod directories. -/
structure ConflictV2 where
  first : ModDir
  second : ModDir
deriving DecidableEq

/-- The conflict test of `check_for_conflicts` (`src/fs.rs` line 140):
`dir.files.iter().any(|file| curr_files.contains(&file))`, i.e. some file of
`b` equals (full path and size) some file of `a`. -/
def sharesFile (a b : ModDir) : Bool :=
  b.files.any fun f => a.files.contains f

/-- `check_for_conflicts` from `src/fs.rs` (lines 130-152). For every
directory `curr` of the modpack it collects a `ConflictV2 curr c` for every
other directory `c` (unequal to `curr` as a `ModDir` value) that shares a
`ModFile` with it; `drain_filter` then removes every directory mentioned by
some conflict, so the accepted modpack keeps exactly the unmentioned ones.
Returns (accepted directories, conflict list). -/
def check_for_conflicts (mods : List ModDir) : List ModDir × List ConflictV2 :=
  let conflicts : List ConflictV2 :=
    mods.flatMap fun curr =>
      (((mods.filter fun d => d != curr).filter fun d =>
          sharesFile curr d).map fun c => ⟨curr, c⟩)
  let accepted : List ModDir :=
    mods.filter fun m => !(conflicts.any fun c => c.first == m || c.second == m)
  (accepted, conflicts)

/-- `Path::strip_prefix` as used by `ModDir.get_patch` (`src/fs.rs` line 122)
to turn a stored full path into the path relative to the directory root:
succeeds exactly when the path starts with the root followed by a separator
(or equals the root). -/
def stripRoot (root path : String) : Option String :=
  if path = root then some ""
  else if (root.data ++ ['/']).isPrefixOf path.data then
    some (path.drop (root.length + 1))
  else none

/-- The (relative path, size) entries contributed by a directory, derived as
`ModDir.get_patch` derives them (`src/fs.rs` lines 121-123) before hashing:
each stored file path stripped of the directory root, with its size. -/
def relEntries (d : ModDir) : List (Option String × Nat) :=
  d.files.map fun f => (stripRoot d.root f.path, f.size)

/-- `ModFileSystem` from `src/fs.rs` (lines 20-25): the overlay's
fingerprint-to-physical-path map plus the incoming-file streaming state. -/
structure ModFileSystem where
  files : Nat → Option String
  incoming_file : Option Nat
  remaining_bytes : Nat

/-- `ModFileSystem::set_incoming_file` from `src/fs.rs` (lines 37-50).
The previous incoming file, if any, is abandoned (only logged); the new hash
is recorded and `remaining_bytes` is set to the physical file's metadata
length. The Rust code calls `.unwrap()` twice: on the map lookup and on the
metadata read; `none` models either panic. `metadata` stands for
`std::fs::metadata(path).len()`. -/
def set_incoming_file (metadata : String → Option Nat) (fs : ModFileSystem)
    (hash : Nat) : Option ModFileSystem :=
  match fs.files hash with
  | none => none
  | some path =>
    match metadata path with
    | none => none
    | some len =>
      some { fs with incoming_file := some hash, remaining_bytes := len }

/-- `ModFileSystem::get_incoming_file` from `src/fs.rs` (lines 52-54):
`self.incoming_file.take()`. Returns the taken value and the new state. -/
def get_incoming_file (fs : ModFileSystem) : Option Nat × ModFileSystem :=
  (fs.incoming_file, { fs with incoming_file := none })

/-- `ModFileSystem::sub_remaining_bytes` from `src/fs.rs` (lines 56-63): a
chunk of `size` bytes is consumed; if it reaches or exceeds the remaining
count the incoming fingerprint is taken and returned, otherwise the counter
is decremented and `none` is returned. -/
def sub_remaining_bytes (fs : ModFileSystem) (size : Nat) :
    Option Nat × ModFileSystem :=
  if size ≥ fs.remaining_bytes then
    get_incoming_file fs
  else
    (none, { fs with remaining_bytes := fs.remaining_bytes - size })

/-- Repeated chunk consumption: the list of results of
`sub_remaining_bytes` for a sequence of chunk sizes, threading the state. -/
def consume_chunks (fs : ModFileSystem) : List Nat → List (Option Nat)
  | [] => []
  | size :: rest =>
    let r := sub_remaining_bytes fs size
    r.1 :: consume_chunks r.2 rest

/-- `smash_arc::FileDataFlags` as constructed in `src/replacement_files.rs`
(line 257): the flag bits of a size-table entry. -/
structure FileDataFlags where
  compressed : Bool
  use_zstd : Bool
  unk : Nat
deriving DecidableEq

/-- `smash_arc::FileData` as used in `src/replacement_files.rs`: one entry of
the archive's size table. All numeric fields are `u32`; no claim performs
arithmetic on them beyond comparison and assignment, so `Nat` is faithful. -/
structure FileData where
  offset_in_folder : Nat
  comp_size : Nat
  decomp_size : Nat
  flags : FileDataFlags
deriving DecidableEq

/-- `FileCtx` from `src/replacement_files.rs` (lines 90-97): one overlay
record, keyed by its hash. -/
structure FileCtx where
  path : String
  hash : Nat
  filesize : Nat
  virtual_file : Bool
  orig_subfile : FileData
deriving DecidableEq

/-- `FileCtx::new` from `src/replacement_files.rs` (lines 247-260). -/
def FileCtx.new : FileCtx where
  path := ""
  hash := 0
  filesize := 0
  virtual_file := false
  orig_subfile :=
    { offset_in_folder := 0
      comp_size := 0
      decomp_size := 0
      flags := { compressed := false, use_zstd := false, unk := 0 } }

/-- The `.replace(";", ":")` step of `visit_file`
(`src/replacement_files.rs` line 213). -/
def replaceSemi (s : List Char) : List Char :=
  s.map fun c => if c = ';' then ':' else c

/-- The region-marker removal of `visit_file` (`src/replacement_files.rs`
lines 216-218): if the game path contains a `+`, the substring from that `+`
up to (but not including) the FIRST `.` of the whole path is removed by
`replace_range(plus_index..first_dot_index, "")`. The Rust code panics when
the path has a `+` but no `.` at all (`find(".").unwrap()`), or when the
first `.` sits before the `+` (an inverted `replace_range` range); `none`
models those panics. -/
def stripRegionChars (s : List Char) : Option (List Char) :=
  match s.findIdx? (· = '+') with
  | none => some s
  | some i =>
    match s.findIdx? (· = '.') with
    | none => none
    | some j =>
      if i ≤ j then some (s.take i ++ s.drop j) else none

/-- The `strip_suffix("mp4")` rewrite of `visit_file`
(`src/replacement_files.rs` lines 221-224): when the path ends in the three
characters `mp4` (with or without a dot), that suffix is replaced by
`webm`. -/
def mp4Rewrite (s : List Char) : List Char :=
  if ['m', 'p', '4'].isSuffixOf s then
    s.take (s.length - 3) ++ ['w', 'e', 'b', 'm']
  else s

/-- The whole string pipeline of `visit_file` applied to the already-sliced
game path (`src/replacement_files.rs` lines 213-224), before `Hash40::from`
is taken of the result: `;`→`:` replacement, then region-marker removal,
then the `mp4`→`webm` rewrite. -/
def normChars (s : List Char) : Option (List Char) :=
  (stripRegionChars (replaceSemi s)).map mp4Rewrite

/-- `normChars` on strings: the normalized path string that gets hashed. -/
def normalize (s : String) : Option String :=
  (normChars s.data).map List.asString

/-- The path that `visit_dir` (`src/replacement_files.rs` line 153) builds
for a directory entry: `format!("{}/{}", dir.display(), entry.path().display())`,
where `entry.path()` is already `dir` joined with the entry's file name, so
the directory appears twice. -/
def visit_dir_entry_path (dir name : String) : String :=
  dir ++ "/" ++ (dir ++ "/" ++ name)

/-- The string that `visit_file` (`src/replacement_files.rs` line 213)
slices from the full path and feeds to normalization and hashing:
`full_path[arc_dir_len + 1..]`. -/
def sliced_game_path (full_path : String) (arc_dir_len : Nat) : String :=
  full_path.drop (arc_dir_len + 1)

/-- `Path::extension().is_some()` computed from a file name, as used by
`FileCtx::get_region` (`src/replacement_files.rs` line 267): a file name has
an extension exactly when it contains a `.`, except that a leading `.` (a
hidden file) does not count as introducing one. -/
def has_extension (name : List Char) : Bool :=
  match name with
  | [] => false
  | c :: rest => if c = '.' then rest.contains '.' else rest.contains '.' || c = '.'

/-- The region-tag table of `FileCtx::get_region`
(`src/replacement_files.rs` lines 272-288): the five characters after the
`+` are matched against the fourteen known tags; every other tag maps to
region index `1`. -/
def regionOfTag (tag : List Char) : Nat :=
  if tag = "jp_ja".data then 0
  else if tag = "us_en".data then 1
  else if tag = "us_fr".data then 2
  else if tag = "us_es".data then 3
  else if tag = "eu_en".data then 4
  else if tag = "eu_fr".data then 5
  else if tag = "eu_es".data then 6
  else if tag = "eu_de".data then 7
  else if tag = "eu_nl".data then 8
  else if tag = "eu_it".data then 9
  else if tag = "eu_ru".data then 10
  else if tag = "kr_ko".data then 11
  else if tag = "zh_cn".data then 12
  else if tag = "zh_tw".data then 13
  else 1

/-- `FileCtx::get_region` from `src/replacement_files.rs` (lines 262-293),
as a function of the runtime's active region index
(`ResServiceState regular_region_idx`) and the path's file name: the result
defaults to the active region; when the file name has an extension and
contains a `+`, the five characters after the first `+` select the region
via `regionOfTag`. The Rust code slices `region[marker+1..marker+6]`
unconditionally, which panics when fewer than five characters follow the
`+`; `none` models that out-of-bounds panic. -/
def get_region (regular_region_idx : Nat) (name : List Char) : Option Nat :=
  if has_extension name then
    match name.findIdx? (· = '+') with
    | some i =>
      if i + 6 ≤ name.length then
        some (regionOfTag ((name.drop (i + 1)).take 5))
      else none
    | none => some regular_region_idx
  else some regular_region_idx

/-- The file branch of `visit_dir` (`src/replacement_files.rs` lines
174-187): when a discovered `FileCtx`'s hash is already present in
`ArcFiles`, only the existing record's `filesize` is updated; otherwise the
new record is inserted. -/
def record_file (m : Nat → Option FileCtx) (fc : FileCtx) :
    Nat → Option FileCtx :=
  fun h =>
    if h = fc.hash then
      match m fc.hash with
      | some ctx => some { ctx with filesize := fc.filesize }
      | none => some fc
    else m h

/-- A flat scan's ingestion of a sequence of discovered records, in
traversal order, through the file branch of `visit_dir`. -/
def ingest (m : Nat → Option FileCtx) : List FileCtx → (Nat → Option FileCtx)
  | [] => m
  | fc :: rest => ingest (record_file m fc) rest

/-- `FileCtx::filesize_replacement` from `src/replacement_files.rs` (lines
311-333), acting on the record and on the archive's size table (modelled as
the map `arc` from hash to `FileData`). If the hash has no size-table entry
the call only logs and returns. Otherwise the CURRENT entry is
unconditionally copied into `orig_subfile` (the code re-runs this copy on
every call) and, when the entry's `decomp_size` is smaller than the record's
`filesize`, the entry's `decomp_size` is raised to `filesize`. Returns the
updated record and table. -/
def filesize_replacement (arc : Nat → Option FileData) (ctx : FileCtx) :
    FileCtx × (Nat → Option FileData) :=
  match arc ctx.hash with
  | none => (ctx, arc)
  | some fd =>
    let ctx2 : FileCtx := { ctx with orig_subfile := fd }
    if fd.decomp_size < ctx.filesize then
      (ctx2, fun h =>
        if h = ctx.hash then some { fd with decomp_size := ctx.filesize }
        else arc h)
    else (ctx2, arc)

/-- A fresh record for hash `h` declaring size `s`, as `visit_file` builds
one before size negotiation. -/
def negCtx (h s : Nat) : FileCtx :=
  { FileCtx.new with hash := h, filesize := s }

/-- A sequence of size negotiations against the archive's size table: each
candidate size `s` in turn runs `filesize_replacement` for a record of hash
`h` declaring size `s`. Returns the final table. -/
def run_negotiations (arc : Nat → Option FileData) (h : Nat) :
    List Nat → (Nat → Option FileData)
  | [] => arc
  | s :: rest => run_negotiations (filesize_replacement arc (negCtx h s)).2 h rest

/-- The fourteen region tags recognized by `FileCtx::get_region`
(`src/replacement_files.rs` lines 273-286). -/
def knownTags : List (List Char) :=
  ["jp_ja".data, "us_en".data, "us_fr".data, "us_es".data, "eu_en".data,
    "eu_fr".data, "eu_es".data, "eu_de".data, "eu_nl".data, "eu_it".data,
    "eu_ru".data, "kr_ko".data, "zh_cn".data, "zh_tw".data]

/-! Concrete sample values used by counterexamples and witnesses. -/

/-- A sample archive size-table entry with decompressed size 10. -/
def sampleFd : FileData :=
  { offset_in_folder := 0
    comp_size := 0
    decomp_size := 10
    flags := { compressed := false, use_zstd := false, unk := 0 } }

/-- A sample archive size table: hash 1 maps to `sampleFd`. -/
def sampleArc : Nat → Option FileData :=
  fun h => if h = 1 then some sampleFd else none

/-- A sample overlay record for hash 1 declaring size 20. -/
def sampleCtx : FileCtx :=
  { FileCtx.new with path := "x", hash := 1, filesize := 20 }

/-- First flat-scan candidate for hash 1: path `a`, size 10. -/
def candA : FileCtx := { FileCtx.new with path := "a", hash := 1, filesize := 10 }

/-- Second flat-scan candidate for hash 1: path `b`, size 20. -/
def candB : FileCtx := { FileCtx.new with path := "b", hash := 1, filesize := 20 }

/-- A mod directory rooted at `a` contributing the relative entry (`f`, 10). -/
def dirA : ModDir := { root := "a", files := [{ path := "a/f", size := 10 }], patches := [] }

/-- A mod directory rooted at `b` contributing the relative entry (`f`, 10). -/
def dirB : ModDir := { root := "b", files := [{ path := "b/f", size := 10 }], patches := [] }

/-- A mod directory rooted at `c` sharing no entry with `dirA` or `dirB`. -/
def dirC : ModDir := { root := "c", files := [{ path := "c/g", size := 3 }], patches := [] }

/-- A sample overlay map: hash 7 maps to the physical path `p`. -/
def sampleFiles : Nat → Option String := fun h => if h = 7 then some "p" else none

/-- Sample filesystem metadata: the file at `p` is 100 bytes. -/
def sampleMeta : String → Option Nat := fun q => if q = "p" then some 100 else none

/-- A mod directory rooted at `r` holding the file (`r/f`, 10). -/
def dirR1 : ModDir := { root := "r", files := [{ path := "r/f", size := 10 }], patches := [] }

/-- A second, distinct mod directory also rooted at `r`, holding the same
stored file (`r/f`, 10) plus another one. -/
def dirR2 : ModDir :=
  { root := "r"
    files := [{ path := "r/f", size := 10 }, { path := "r/g", size := 5 }]
    patches := [] }

/-! Helper lemmas. -/

/-- Counting across a `flatMap` sums the per-element counts. -/
theorem countP_flatMap {α β : Type} (p : β → Bool) (f : α → List β) :
    ∀ l : List α, ((l.flatMap f).countP p) = (l.map fun a => (f a).countP p).sum := by
  intro l
  induction l with
  | nil => rfl
  | cons a l ih =>
    rw [List.flatMap_cons, List.countP_append, List.map_cons, List.sum_cons, ih]

/-- If `g` is 1 at `X` and 0 at every other member of a duplicate-free list
containing `X`, then summing `g` over the list gives exactly 1. -/
theorem sum_map_eq_one {α : Type} (X : α) (g : α → Nat) :
    ∀ l : List α, l.Nodup → X ∈ l → g X = 1 → (∀ x ∈ l, x ≠ X → g x = 0) →
      (l.map g).sum = 1 := by
  intro l
  induction l with
  | nil => intro _ hX; cases hX
  | cons x rest ih =>
    intro hnd hX h1 h0
    obtain ⟨hxr, hndr⟩ := List.nodup_cons.mp hnd
    rw [List.map_cons, List.sum_cons]
    rcases List.mem_cons.mp hX with rfl | hXr
    · have hz : (rest.map g).sum = 0 := by
        apply List.sum_eq_zero
        intro z hz
        obtain ⟨y, hy, rfl⟩ := List.mem_map.mp hz
        exact h0 y (List.mem_cons_of_mem _ hy) fun hyX => hxr (hyX ▸ hy)
      rw [h1, hz]
    · have hxX : x ≠ X := fun h => hxr (h ▸ hXr)
      rw [h0 x (List.mem_cons_self x rest) hxX]
      rw [ih hndr hXr h1 fun y hy => h0 y (List.mem_cons_of_mem _ hy)]

/-- `sharesFile a b` holds exactly when some `ModFile` occurs in both
directories' stored file lists. -/
theorem sharesFile_iff (a b : ModDir) :
    sharesFile a b = true ↔ ∃ f, f ∈ a.files ∧ f ∈ b.files := by
  simp only [sharesFile, List.any_eq_true, List.contains_iff_exists_mem_beq, beq_iff_eq]
  constructor
  · rintro ⟨f, hfb, g, hga, rfl⟩
    exact ⟨f, hga, hfb⟩
  · rintro ⟨f, hfa, hfb⟩
    exact ⟨f, hfb, f, hfa, rfl⟩

/-- Sharing a stored file is symmetric. -/
theorem sharesFile_comm (a b : ModDir) : sharesFile a b = sharesFile b a := by
  by_cases h : sharesFile a b = true
  · obtain ⟨f, hfa, hfb⟩ := (sharesFile_iff a b).mp h
    rw [h, Eq.symm ((sharesFile_iff b a).mpr ⟨f, hfb, hfa⟩)]
  · have h2 : ¬sharesFile b a = true := fun hba => by
      obtain ⟨f, hfb, hfa⟩ := (sharesFile_iff b a).mp hba
      exact h ((sharesFile_iff a b).mpr ⟨f, hfa, hfb⟩)
    rw [Bool.eq_false_iff.mpr h, Bool.eq_false_iff.mpr h2]

/-- The conflict list of `check_for_conflicts`, written out. -/
theorem conflicts_def (mods : List ModDir) :
    (check_for_conflicts mods).2 =
      mods.flatMap fun curr =>
        (((mods.filter fun d => d != curr).filter fun d =>
            sharesFile curr d).map fun c => ConflictV2.mk curr c) := rfl

/-- The accepted list of `check_for_conflicts`, written out. -/
theorem accepted_def (mods : List ModDir) :
    (check_for_conflicts mods).1 =
      mods.filter fun m =>
        !((check_for_conflicts mods).2.any fun c => c.first == m || c.second == m) := rfl

/-- In a duplicate-free modpack, each ordered pair of distinct directories
sharing a stored file is reported by exactly one `ConflictV2` in that
orientation. -/
theorem conflicts_countP_eq_one (mods : List ModDir) (X Y : ModDir)
    (hnd : mods.Nodup) (hX : X ∈ mods) (hY : Y ∈ mods) (hne : Y ≠ X)
    (hsh : sharesFile X Y = true) :
    ((check_for_conflicts mods).2.countP fun c => c.first == X && c.second == Y) = 1 := by
  rw [conflicts_def, countP_flatMap]
  apply sum_map_eq_one X _ mods hnd hX
  · rw [List.countP_map]
    have hc : ((fun c => c.first == X && c.second == Y) ∘ fun c => ConflictV2.mk X c)
        = fun d => d == Y := by
      funext d
      simp [Function.comp]
    rw [hc, ← List.count_eq_countP]
    apply List.count_eq_one_of_mem
    · exact (hnd.filter _).filter _
    · rw [List.mem_filter, List.mem_filter]
      exact ⟨⟨hY, bne_iff_ne.mpr hne⟩, hsh⟩
  · intro x hx hneX
    rw [List.countP_map]
    apply List.countP_eq_zero.mpr
    intro d _
    simp only [Function.comp, Bool.and_eq_true, beq_iff_eq]
    rintro ⟨rfl, -⟩
    exact hneX rfl

/-- Every reported conflict pairs two member directories that are unequal
and share a stored file. -/
theorem conflicts_sound (mods : List ModDir) (c : ConflictV2)
    (hc : c ∈ (check_for_conflicts mods).2) :
    c.first ∈ mods ∧ c.second ∈ mods ∧ c.second ≠ c.first ∧
      sharesFile c.first c.second = true := by
  rw [conflicts_def] at hc
  obtain ⟨curr, hcurr, hmem⟩ := List.mem_flatMap.mp hc
  obtain ⟨d, hd, rfl⟩ := List.mem_map.mp hmem
  rw [List.mem_filter, List.mem_filter] at hd
  exact ⟨hcurr, hd.1.1, bne_iff_ne.mp hd.1.2, hd.2⟩

/-- Repeatedly running the `visit_dir` file branch over candidates that all
carry hash `h`, starting from a map that already holds `ctx` at `h`, keeps
`ctx` and only refreshes its `filesize` to the last candidate's; every other
key is untouched. -/
theorem ingest_update (l : List FileCtx) :
    ∀ (m : Nat → Option FileCtx) (h : Nat) (ctx : FileCtx), m h = some ctx →
      (∀ c ∈ l, c.hash = h) →
      ingest m l h =
        some { ctx with filesize := (l.map FileCtx.filesize).getLastD ctx.filesize } ∧
      ∀ h2, h2 ≠ h → ingest m l h2 = m h2 := by
  induction l with
  | nil =>
    intro m h ctx hm _
    exact ⟨hm, fun _ _ => rfl⟩
  | cons c rest ih =>
    intro m h ctx hm hall
    have hc : c.hash = h := hall c (List.mem_cons_self c rest)
    have hm2 : record_file m c h = some { ctx with filesize := c.filesize } := by
      simp [record_file, hc, hm]
    have hrest : ∀ d ∈ rest, d.hash = h := fun d hd => hall d (List.mem_cons_of_mem c hd)
    obtain ⟨h1, h2⟩ :=
      ih (record_file m c) h { ctx with filesize := c.filesize } hm2 hrest
    refine ⟨?_, ?_⟩
    · have hL : ((c :: rest).map FileCtx.filesize).getLastD ctx.filesize
          = (rest.map FileCtx.filesize).getLastD c.filesize := by
        rw [List.map_cons, List.getLastD_cons]
      rw [show ingest m (c :: rest) = ingest (record_file m c) rest from rfl, hL]
      exact h1
    · intro h2' hne
      have hr : record_file m c h2' = m h2' := by
        simp [record_file, hc, if_neg hne]
      rw [show ingest m (c :: rest) = ingest (record_file m c) rest from rfl,
        h2 h2' hne, hr]

/-- One size negotiation, seen from the archive table at the record's hash:
the entry's decompressed size is raised to the maximum of its old value and
the record's declared size; nothing else in the entry changes. -/
theorem filesize_replacement_table (arc : Nat → Option FileData) (h s : Nat)
    (fd : FileData) (harc : arc h = some fd) :
    (filesize_replacement arc (negCtx h s)).2 h =
      some { fd with decomp_size := Nat.max fd.decomp_size s } := by
  have hhash : (negCtx h s).hash = h := rfl
  have hsize : (negCtx h s).filesize = s := rfl
  simp only [filesize_replacement, hhash, hsize, harc]
  by_cases hlt : fd.decomp_size < s
  · simp [hlt, Nat.max_eq_right (Nat.le_of_lt hlt)]
  · simp [hlt, Nat.max_eq_left (Nat.not_lt.mp hlt), harc]

/-- Folding a whole sequence of negotiations: the final entry's decompressed
size is the maximum of the original size and all candidate sizes. -/
theorem run_negotiations_eq (sizes : List Nat) :
    ∀ (arc : Nat → Option FileData) (h : Nat) (fd : FileData), arc h = some fd →
      run_negotiations arc h sizes h =
        some { fd with decomp_size := Nat.max fd.decomp_size (sizes.foldr Nat.max 0) } := by
  induction sizes with
  | nil =>
    intro arc h fd harc
    simp only [run_negotiations, List.foldr_nil, Nat.max_zero]
    exact harc
  | cons s rest ih =>
    intro arc h fd harc
    have hstep := filesize_replacement_table arc h s fd harc
    have := ih (filesize_replacement arc (negCtx h s)).2 h
      { fd with decomp_size := Nat.max fd.decomp_size s } hstep
    simpa [run_negotiations, Nat.max_assoc] using this

/-- `replaceSemi` distributes over list append. -/
theorem replaceSemi_append (a b : List Char) :
    replaceSemi (a ++ b) = replaceSemi a ++ replaceSemi b :=
  List.map_append _ a b

/-- A character other than `:` that does not occur in a list still does not
occur after the `;`→`:` replacement. -/
theorem replaceSemi_not_mem (c : Char) (hc : c ≠ ':') (l : List Char)
    (h : c ∉ l) : c ∉ replaceSemi l := by
  intro hmem
  obtain ⟨a, ha, hEq⟩ := List.mem_map.mp hmem
  by_cases hs : a = ';'
  · rw [hs] at hEq
    simp only [if_pos rfl] at hEq
    exact hc hEq.symm
  · rw [if_neg hs] at hEq
    exact h (hEq ▸ ha)

/-- The shape of the `;`→`:` replacement on a region-tagged path. -/
theorem replaceSemi_shape1 (p tag e : List Char) :
    replaceSemi (p ++ '+' :: (tag ++ '.' :: e)) =
      replaceSemi p ++ '+' :: (replaceSemi tag ++ '.' :: replaceSemi e) := by
  simp [replaceSemi]

/-- The shape of the `;`→`:` replacement on an untagged path. -/
theorem replaceSemi_shape2 (p e : List Char) :
    replaceSemi (p ++ '.' :: e) = replaceSemi p ++ '.' :: replaceSemi e := by
  simp [replaceSemi]

/-- `find` locates the first occurrence: when `c` does not occur in `l`, the
first `c` of `l ++ c :: r` sits at index `l.length`. -/
theorem findIdx?_eq_length_of_not_mem (c : Char) (l r : List Char)
    (hl : c ∉ l) : (l ++ c :: r).findIdx? (· = c) = some l.length := by
  rw [List.findIdx?_append]
  have h1 : l.findIdx? (· = c) = none :=
    List.findIdx?_eq_none_iff.mpr fun x hx =>
      decide_eq_false fun hEq => hl (hEq ▸ hx)
  rw [h1, Option.none_or, List.findIdx?_cons]
  simp

/-- `find` misses: when `c` does not occur in `l` at all. -/
theorem findIdx?_eq_none_of_not_mem (c : Char) (l : List Char) (hl : c ∉ l) :
    l.findIdx? (· = c) = none :=
  List.findIdx?_eq_none_iff.mpr fun _x hx =>
    decide_eq_false fun hEq => hl (hEq ▸ hx)

/-- Region-marker removal on a path whose first `+` precedes its first `.`:
the whole segment from the `+` to the first dot is cut out. -/
theorem stripRegion_tagged (P T E : List Char)
    (hP1 : '+' ∉ P) (hP2 : '.' ∉ P) (hT : '.' ∉ T) :
    stripRegionChars (P ++ '+' :: (T ++ '.' :: E)) = some (P ++ '.' :: E) := by
  have hassoc : P ++ '+' :: (T ++ '.' :: E) = (P ++ '+' :: T) ++ '.' :: E :=
    (List.append_assoc P ('+' :: T) ('.' :: E)).symm
  have hplus : (P ++ '+' :: (T ++ '.' :: E)).findIdx? (· = '+') = some P.length :=
    findIdx?_eq_length_of_not_mem '+' P _ hP1
  have hdotnot : '.' ∉ P ++ '+' :: T := by
    intro h
    rcases List.mem_append.mp h with h | h
    · exact hP2 h
    · rcases List.mem_cons.mp h with h | h
      · exact absurd h (by decide)
      · exact hT h
  have hdot : (P ++ '+' :: (T ++ '.' :: E)).findIdx? (· = '.') =
      some (P ++ '+' :: T).length := by
    rw [hassoc]
    exact findIdx?_eq_length_of_not_mem '.' _ E hdotnot
  have hle : P.length ≤ (P ++ '+' :: T).length := by
    rw [List.length_append]
    exact Nat.le_add_right _ _
  have ht : (P ++ '+' :: (T ++ '.' :: E)).take P.length = P :=
    List.take_left P _
  have hd : (P ++ '+' :: (T ++ '.' :: E)).drop (P ++ '+' :: T).length =
      '.' :: E := by
    rw [hassoc]
    exact List.drop_left _ _
  simp only [stripRegionChars, hplus, hdot, if_pos hle, ht, hd]

/-- Region-marker removal is the identity on a path without a `+`. -/
theorem stripRegion_no_plus (s : List Char) (h : '+' ∉ s) :
    stripRegionChars s = some s := by
  simp only [stripRegionChars, findIdx?_eq_none_of_not_mem '+' s h]

/-! Claim theorems. -/

/-- C1, counterexample: `dirA` (root `a`) and `dirB` (root `b`) are distinct
directories that both contribute the identical relative entry (`f`, 10),
yet `check_for_conflicts` on the modpack `[dirA, dirB, dirC]` reports NO
conflict at all and keeps both directories in the accepted set — the
conflict test compares stored `ModFile` values, whose paths still carry each
directory's distinct root prefix, so entries agreeing only relatively never
compare equal. -/
theorem C1_counterexample :
    dirA ≠ dirB ∧
    (some "f", 10) ∈ relEntries dirA ∧ (some "f", 10) ∈ relEntries dirB ∧
    (check_for_conflicts [dirA, dirB, dirC]).2 = [] ∧
    (check_for_conflicts [dirA, dirB, dirC]).1 = [dirA, dirB, dirC] := by
  decide

/-- C1, amended: conflict detection compares full stored `ModFile` values
(path as stored, including the directory root, plus size), not root-relative
entries. In a duplicate-free modpack, two distinct directories `A` and `B`
sharing one identical stored entry yield exactly one `ConflictV2` per
orientation (so two records naming both, not one), both directories are
absent from the accepted set, and any member sharing no stored entry with
any other member remains in the accepted set. -/
theorem C1_full_path_conflicts (mods : List ModDir) (A B : ModDir)
    (hnd : mods.Nodup) (hA : A ∈ mods) (hB : B ∈ mods) (hne : A ≠ B)
    (hsh : sharesFile A B = true) :
    ((check_for_conflicts mods).2.countP fun c => c.first == A && c.second == B) = 1 ∧
    ((check_for_conflicts mods).2.countP fun c => c.first == B && c.second == A) = 1 ∧
    A ∉ (check_for_conflicts mods).1 ∧ B ∉ (check_for_conflicts mods).1 ∧
    ∀ C0 ∈ mods,
      (∀ D ∈ mods, D ≠ C0 → sharesFile C0 D = false ∧ sharesFile D C0 = false) →
      C0 ∈ (check_for_conflicts mods).1 := by
  have hshBA : sharesFile B A = true := by
    rw [sharesFile_comm]
    exact hsh
  have hcAB := conflicts_countP_eq_one mods A B hnd hA hB (Ne.symm hne) hsh
  have hcBA := conflicts_countP_eq_one mods B A hnd hB hA hne hshBA
  refine ⟨hcAB, hcBA, ?_, ?_, ?_⟩
  · intro hacc
    rw [accepted_def, List.mem_filter] at hacc
    have hany := hacc.2
    simp only [Bool.not_eq_true', List.any_eq_false] at hany
    have hpos : 0 < ((check_for_conflicts mods).2.countP
        fun c => c.first == A && c.second == B) := by
      rw [hcAB]
      exact Nat.one_pos
    obtain ⟨c, hc, hp⟩ := List.countP_pos_iff.mp hpos
    have hno := hany c hc
    simp only [Bool.and_eq_true, beq_iff_eq] at hp
    simp only [Bool.or_eq_true, beq_iff_eq] at hno
    exact hno (Or.inl hp.1)
  · intro hacc
    rw [accepted_def, List.mem_filter] at hacc
    have hany := hacc.2
    simp only [Bool.not_eq_true', List.any_eq_false] at hany
    have hpos : 0 < ((check_for_conflicts mods).2.countP
        fun c => c.first == B && c.second == A) := by
      rw [hcBA]
      exact Nat.one_pos
    obtain ⟨c, hc, hp⟩ := List.countP_pos_iff.mp hpos
    have hno := hany c hc
    simp only [Bool.and_eq_true, beq_iff_eq] at hp
    simp only [Bool.or_eq_true, beq_iff_eq] at hno
    exact hno (Or.inl hp.1)
  · intro C0 hC0 hiso
    rw [accepted_def, List.mem_filter]
    refine ⟨hC0, ?_⟩
    simp only [Bool.not_eq_true', List.any_eq_false]
    intro c hc
    obtain ⟨hc1, hc2, hc3, hc4⟩ := conflicts_sound mods c hc
    simp only [Bool.or_eq_true, beq_iff_eq, not_or]
    constructor
    · intro heq
      rw [heq] at hc4 hc3
      exact absurd hc4 (by simp [(hiso c.second hc2 hc3).1])
    · intro heq
      rw [heq] at hc4 hc3
      exact absurd hc4 (by simp [(hiso c.first hc1 (Ne.symm hc3)).2])

/-- C1, witness: the amended theorem applied to the concrete modpack
`[dirR1, dirR2, dirC]`, in which the two same-rooted directories `dirR1`
and `dirR2` share the stored entry (`r/f`, 10) and `dirC` shares nothing. -/
theorem C1_witness :
    ((check_for_conflicts [dirR1, dirR2, dirC]).2.countP
      fun c => c.first == dirR1 && c.second == dirR2) = 1 ∧
    ((check_for_conflicts [dirR1, dirR2, dirC]).2.countP
      fun c => c.first == dirR2 && c.second == dirR1) = 1 ∧
    dirR1 ∉ (check_for_conflicts [dirR1, dirR2, dirC]).1 ∧
    dirR2 ∉ (check_for_conflicts [dirR1, dirR2, dirC]).1 ∧
    dirC ∈ (check_for_conflicts [dirR1, dirR2, dirC]).1 := by
  have T := C1_full_path_conflicts [dirR1, dirR2, dirC] dirR1 dirR2
    (by decide) (by decide) (by decide) (by decide) (by decide)
  exact ⟨T.1, T.2.1, T.2.2.1, T.2.2.2.1, T.2.2.2.2 dirC (by decide) (by decide)⟩

/-- C6, counterexample: for the file name `model+us_en.mario.numatb`, whose
final `.` is the one before `numatb`, stripping up to the final dot would
give `model.numatb`; the code instead strips only up to the FIRST `.`
(`game_path.find(".")`), producing `model.mario.numatb`, so the
region-tagged variant does not hash like the untagged logical file. The
claim's own single-dot example does hold, as the last conjunct shows. -/
theorem C6_counterexample :
    normalize "model+us_en.mario.numatb" = some "model.mario.numatb" ∧
    normalize "model+us_en.mario.numatb" ≠ some "model.numatb" ∧
    normalize "model+us_en.numatb" = normalize "model.numatb" := by
  decide

/-- C6, amended: normalization strips the substring from the `+` up to (but
not including) the FIRST `.` of the path. Whenever the first `+` precedes
the first `.` — in particular for a region-tagged filename whose tag
contains no dot and whose stem contains neither `+` nor `.` — the tagged
variant normalizes (hence hashes) identically to the untagged file. -/
theorem C6_region_tag_strip (p tag e : List Char)
    (hp1 : '+' ∉ p) (hp2 : '.' ∉ p) (ht : '.' ∉ tag) (he : '+' ∉ e) :
    normChars (p ++ '+' :: (tag ++ '.' :: e)) = normChars (p ++ '.' :: e) := by
  have hP1 : '+' ∉ replaceSemi p := replaceSemi_not_mem '+' (by decide) p hp1
  have hP2 : '.' ∉ replaceSemi p := replaceSemi_not_mem '.' (by decide) p hp2
  have hT : '.' ∉ replaceSemi tag := replaceSemi_not_mem '.' (by decide) tag ht
  have hE : '+' ∉ replaceSemi e := replaceSemi_not_mem '+' (by decide) e he
  have hnot2 : '+' ∉ replaceSemi p ++ '.' :: replaceSemi e := by
    intro h
    rcases List.mem_append.mp h with h | h
    · exact hP1 h
    · rcases List.mem_cons.mp h with h | h
      · exact absurd h (by decide)
      · exact hE h
  unfold normChars
  rw [replaceSemi_shape1, replaceSemi_shape2,
    stripRegion_tagged _ _ _ hP1 hP2 hT, stripRegion_no_plus _ hnot2]

/-- C6, witness: the amended theorem applied to stem `model`, tag `us_en`
and extension `numatb` — the claim's own example pair. -/
theorem C6_witness :
    normChars ("model".data ++ '+' :: ("us_en".data ++ '.' :: "numatb".data)) =
      normChars ("model".data ++ '.' :: "numatb".data) :=
  C6_region_tag_strip "model".data "us_en".data "numatb".data
    (by decide) (by decide) (by decide) (by decide)

/-- C7, counterexample: with active runtime region 0 (`jp_ja`), the file
name `model+ab_cd.num` carries a five-character tag that is not in the
recognized enumeration; `get_region` returns region 1 (the `us_en` index,
from the hardcoded `_ => region_index = 1` arm), NOT the runtime-supplied
active region 0 that the no-`+` name `model.num` yields. -/
theorem C7_counterexample :
    get_region 0 "model+ab_cd.num".data = some 1 ∧
    get_region 0 "model.num".data = some 0 ∧
    (some 1 : Option Nat) ≠ some 0 := by
  decide

/-- C7, amended: when a file name with an extension carries a `+` followed
by at least five characters that form no recognized region tag, `get_region`
returns the constant region index 1 (`us_en`), whatever the runtime-supplied
active region is; the runtime default is returned only when the name
contains no `+` (here: for any name and any active region). -/
theorem C7_unknown_tag_yields_one (d : Nat) (name : List Char) (i : Nat)
    (hext : has_extension name = true)
    (hplus : name.findIdx? (· = '+') = some i)
    (hlen : i + 6 ≤ name.length)
    (hunk : ∀ t ∈ knownTags, (name.drop (i + 1)).take 5 ≠ t) :
    get_region d name = some 1 ∧
    ∀ (d2 : Nat) (name2 : List Char), '+' ∉ name2 →
      get_region d2 name2 = some d2 := by
  constructor
  · have h1 := hunk "jp_ja".data (by decide)
    have h2 := hunk "us_en".data (by decide)
    have h3 := hunk "us_fr".data (by decide)
    have h4 := hunk "us_es".data (by decide)
    have h5 := hunk "eu_en".data (by decide)
    have h6 := hunk "eu_fr".data (by decide)
    have h7 := hunk "eu_es".data (by decide)
    have h8 := hunk "eu_de".data (by decide)
    have h9 := hunk "eu_nl".data (by decide)
    have h10 := hunk "eu_it".data (by decide)
    have h11 := hunk "eu_ru".data (by decide)
    have h12 := hunk "kr_ko".data (by decide)
    have h13 := hunk "zh_cn".data (by decide)
    have h14 := hunk "zh_tw".data (by decide)
    simp only [get_region, hext, if_true, hplus, if_pos hlen, regionOfTag,
      h1, h2, h3, h4, h5, h6, h7, h8, h9, h10, h11, h12, h13, h14, if_false]
  · intro d2 name2 hno
    by_cases hx : has_extension name2 = true
    · simp [get_region, hx, findIdx?_eq_none_of_not_mem '+' name2 hno]
    · simp [get_region, hx]

/-- C7, witness: the amended theorem applied to the unrecognized tag
`ab_xx` under active region 0, and (for the no-`+` part) to the untagged
name `model.num` under active region 3. -/
theorem C7_witness :
    get_region 0 "model+ab_xx.num".data = some 1 ∧
    get_region 3 "model.num".data = some 3 :=
  ⟨(C7_unknown_tag_yields_one 0 "model+ab_xx.num".data 5 (by decide)
      (by decide) (by decide) (by decide)).1,
    (C7_unknown_tag_yields_one 0 "model+ab_xx.num".data 5 (by decide)
      (by decide) (by decide) (by decide)).2 3 "model.num".data (by decide)⟩

/-- C2, counterexample: two flat-scan candidates for hash 1, first path `a`
size 10, then path `b` size 20. After ingestion the surviving record has the
LAST candidate's size (20) but the FIRST candidate's physical path (`a`),
not the last one's (`b`): the `visit_dir` file branch updates only
`filesize` when the hash is already present. -/
theorem C2_counterexample :
    ingest (fun _ => none) [candA, candB] 1 =
      some { FileCtx.new with path := "a", hash := 1, filesize := 20 } ∧
    candB.path = "b" ∧ ("a" : String) ≠ "b" := by
  decide

/-- C2, amended: after a flat scan ingests candidates `first :: rest` all
sharing one fingerprint `h` that the overlay did not previously hold,
exactly one record remains at `h`; its size is the LAST candidate's, but its
physical path (and every other field) is the FIRST-inserted candidate's, and
no other fingerprint is affected. -/
theorem C2_flat_scan_keeps_first_path (m0 : Nat → Option FileCtx) (h : Nat)
    (first : FileCtx) (rest : List FileCtx) (hempty : m0 h = none)
    (hfirst : first.hash = h) (hall : ∀ c ∈ rest, c.hash = h) :
    ingest m0 (first :: rest) h =
      some { first with filesize := (rest.map FileCtx.filesize).getLastD first.filesize } ∧
    ∀ h2, h2 ≠ h → ingest m0 (first :: rest) h2 = m0 h2 := by
  have hm : record_file m0 first h = some first := by
    simp [record_file, hfirst, hempty]
  obtain ⟨h1, h2⟩ := ingest_update rest (record_file m0 first) h first hm hall
  refine ⟨?_, ?_⟩
  · rw [show ingest m0 (first :: rest) = ingest (record_file m0 first) rest from rfl]
    exact h1
  · intro h2' hne
    have hr : record_file m0 first h2' = m0 h2' := by
      simp [record_file, hfirst, if_neg hne]
    rw [show ingest m0 (first :: rest) = ingest (record_file m0 first) rest from rfl,
      h2 h2' hne, hr]

/-- C2, witness: the amended theorem applied to the two concrete candidates
`candA`, `candB` and, for the untouched-key part, to fingerprint 5. -/
theorem C2_witness :
    ingest (fun _ => none) [candA, candB] 1 =
      some { candA with filesize := ([candB].map FileCtx.filesize).getLastD candA.filesize } ∧
    ingest (fun _ => none) [candA, candB] 5 = none :=
  ⟨(C2_flat_scan_keeps_first_path (fun _ => none) 1 candA [candB] rfl rfl
      (by intro c hc; simp at hc; subst hc; rfl)).1,
    (C2_flat_scan_keeps_first_path (fun _ => none) 1 candA [candB] rfl rfl
      (by intro c hc; simp at hc; subst hc; rfl)).2 5 (by decide)⟩

/-- C3: the code evaluated at the failing input. The archive entry for
hash 1 originally has decompressed size 10 (`sampleFd`); the record
`sampleCtx` declares size 20. The first negotiation captures backup 10 and
raises the table entry to 20; the second negotiation OVERWRITES the backup
with the already-patched entry, so the backup becomes 20 and no longer
equals the pre-patch value 10 — `filesize_replacement` re-runs the
`orig_subfile` copy on every call instead of capturing it once. -/
theorem C3_backup_recaptured :
    sampleFd.decomp_size = 10 ∧
    (filesize_replacement sampleArc sampleCtx).1.orig_subfile.decomp_size = 10 ∧
    (filesize_replacement (filesize_replacement sampleArc sampleCtx).2
        (filesize_replacement sampleArc sampleCtx).1).1.orig_subfile.decomp_size = 20 := by
  decide

/-- C4: starting from an archive entry of decompressed size `fd.decomp_size`
for fingerprint `h`, running the negotiations for any sequence of candidate
sizes leaves the table holding the same entry with decompressed size
`max (original) (max of the candidates)`; all other fields are unchanged and
the recorded size is never lowered below the original. -/
theorem C4_negotiated_size_is_max (arc : Nat → Option FileData) (h : Nat)
    (fd : FileData) (sizes : List Nat) (harc : arc h = some fd) :
    run_negotiations arc h sizes h =
      some { fd with decomp_size := Nat.max fd.decomp_size (sizes.foldr Nat.max 0) } ∧
    fd.decomp_size ≤ Nat.max fd.decomp_size (sizes.foldr Nat.max 0) :=
  ⟨run_negotiations_eq sizes arc h fd harc,
    Nat.le_max_left _ _⟩

/-- C4, witness: the theorem applied to the sample table (entry of size 10
at hash 1) and the candidate sizes 40 and 20. -/
theorem C4_witness :
    run_negotiations sampleArc 1 [40, 20] 1 =
      some { sampleFd with
        decomp_size := Nat.max sampleFd.decomp_size ([40, 20].foldr Nat.max 0) } ∧
    sampleFd.decomp_size ≤ Nat.max sampleFd.decomp_size ([40, 20].foldr Nat.max 0) :=
  C4_negotiated_size_is_max sampleArc 1 sampleFd [40, 20] rfl

/-- C5: the code evaluated at the failing input. For scan root `mods`
(prefix length 4) and a directory entry named `file.bin`, `visit_dir` builds
the full path `mods/mods/file.bin` (the root is concatenated with
`entry.path()`, which already contains the root) and `visit_file` slices off
`arc_dir_len + 1` characters, leaving `mods/file.bin` — the scan-root prefix
is NOT removed from the hashed string, which the claim requires to be the
relative path `file.bin`. -/
theorem C5_hashed_path_keeps_root :
    visit_dir_entry_path "mods" "file.bin" = "mods/mods/file.bin" ∧
    sliced_game_path (visit_dir_entry_path "mods" "file.bin") "mods".length =
      "mods/file.bin" ∧
    ("mods/file.bin" : String) ≠ "file.bin" := by
  decide

/-- C8: the code evaluated at the failing input. The file name `a+bc.x` has
an extension and contains a `+` followed by only four characters;
`get_region` slices `region[marker+1..marker+6]` out of bounds, which
panics (modelled by `none`) — region selection is not total. -/
theorem C8_get_region_panics :
    get_region 0 "a+bc.x".data = none := by
  decide

/-- C9: after `set_incoming_file` marks fingerprint `h` whose physical file
is 100 bytes, consuming chunks of 40, 40, 20 yields `none, none, some h`,
and consuming a single chunk of 150 yields `some h` immediately; moreover a
single chunk returns a fingerprint exactly when its size reaches or exceeds
the remaining byte count and that fingerprint is the incoming one. -/
theorem C9_chunk_protocol (metadata : String → Option Nat)
    (fs0 : ModFileSystem) (h : Nat) (p : String)
    (hf : fs0.files h = some p) (hm : metadata p = some 100) :
    set_incoming_file metadata fs0 h =
      some { fs0 with incoming_file := some h, remaining_bytes := 100 } ∧
    consume_chunks { fs0 with incoming_file := some h, remaining_bytes := 100 }
      [40, 40, 20] = [none, none, some h] ∧
    consume_chunks { fs0 with incoming_file := some h, remaining_bytes := 100 }
      [150] = [some h] ∧
    ∀ (fs : ModFileSystem) (size hh : Nat),
      (sub_remaining_bytes fs size).1 = some hh ↔
        fs.remaining_bytes ≤ size ∧ fs.incoming_file = some hh := by
  refine ⟨?_, ?_, ?_, ?_⟩
  · simp [set_incoming_file, hf, hm]
  · rfl
  · rfl
  · intro fs size hh
    by_cases hge : fs.remaining_bytes ≤ size
    · simp [sub_remaining_bytes, get_incoming_file, ge_iff_le, hge]
    · simp [sub_remaining_bytes, get_incoming_file, ge_iff_le, hge]

/-- C9, witness: the theorem applied to the sample overlay (hash 7 at path
`p`, 100 bytes), with the reach-or-exceed equivalence instantiated at a
remaining count of 100 and a chunk of 150. -/
theorem C9_witness :
    set_incoming_file sampleMeta ⟨sampleFiles, none, 0⟩ 7 =
      some { (⟨sampleFiles, none, 0⟩ : ModFileSystem) with
        incoming_file := some 7, remaining_bytes := 100 } ∧
    consume_chunks { (⟨sampleFiles, none, 0⟩ : ModFileSystem) with
      incoming_file := some 7, remaining_bytes := 100 } [40, 40, 20] =
      [none, none, some 7] ∧
    ((sub_remaining_bytes ⟨sampleFiles, some 7, 100⟩ 150).1 = some 7 ↔
      100 ≤ 150 ∧ (some 7 : Option Nat) = some 7) :=
  ⟨(C9_chunk_protocol sampleMeta ⟨sampleFiles, none, 0⟩ 7 "p" rfl rfl).1,
    (C9_chunk_protocol sampleMeta ⟨sampleFiles, none, 0⟩ 7 "p" rfl rfl).2.1,
    (C9_chunk_protocol sampleMeta ⟨sampleFiles, none, 0⟩ 7 "p" rfl rfl).2.2.2
      ⟨sampleFiles, some 7, 100⟩ 150 7⟩

/-- C10: `set_incoming_file` requires the fingerprint to resolve through the
overlay's file map to a file with readable metadata: when the map has no
entry for the hash the `.unwrap()` on the lookup panics (modelled by
`none`), and when the metadata read fails the second `.unwrap()` panics. -/
theorem C10_set_incoming_requires_entry (metadata : String → Option Nat)
    (fs : ModFileSystem) (h : Nat) :
    (fs.files h = none → set_incoming_file metadata fs h = none) ∧
    (∀ p, fs.files h = some p → metadata p = none →
      set_incoming_file metadata fs h = none) := by
  constructor
  · intro hn
    simp [set_incoming_file, hn]
  · intro p hp hmeta
    simp [set_incoming_file, hp, hmeta]

/-- C10, witness: the theorem applied to an overlay whose map is empty, at
fingerprint 0. -/
theorem C10_witness :
    set_incoming_file (fun _ => none) ⟨(fun _ => none), none, 0⟩ 0 = none :=
  (C10_set_incoming_requires_entry (fun _ => none) ⟨(fun _ => none), none, 0⟩ 0).1 rfl

end Arcropolis
